import Mathlib

/-!
Shallow embedding of the migration engine of `turso-migrate`
(`internal/migration/engine.go` together with the storage contract of
`internal/storage/turso.go`), and theorems checking the engine's
specification against it.

String manipulation is modelled at the character-list level with
structural recursion, so every definition evaluates by kernel reduction
on concrete inputs.  Go compares strings byte-wise (`memcmp`), and
SQLite's default BINARY collation does the same; on valid UTF-8 data the
byte-wise order coincides with the lexicographic order of Unicode code
points, which is what `charLe` below implements.
-/

namespace TursoMigrate

/-! ### Character and string primitives -/

/-- Embedding of Go's `unicode.IsSpace`: the Unicode White_Space code points. -/
def goIsSpace (c : Char) : Bool :=
  decide ((0x09 ≤ c.toNat ∧ c.toNat ≤ 0x0d) ∨ c.toNat = 0x20 ∨ c.toNat = 0x85 ∨
    c.toNat = 0xa0 ∨ c.toNat = 0x1680 ∨ (0x2000 ≤ c.toNat ∧ c.toNat ≤ 0x200a) ∨
    c.toNat = 0x2028 ∨ c.toNat = 0x2029 ∨ c.toNat = 0x202f ∨ c.toNat = 0x205f ∨
    c.toNat = 0x3000)

/-- Drop leading and trailing white space from a character list
(the character-level content of Go's `strings.TrimSpace`). -/
def trimChars (l : List Char) : List Char :=
  ((l.dropWhile goIsSpace).reverse.dropWhile goIsSpace).reverse

/-- Embedding of Go's `strings.TrimSpace`. -/
def goTrimSpace (s : String) : String := ⟨trimChars s.data⟩

/-- Embedding of Go's `strings.Contains`: substring containment.  Byte-level
containment of valid UTF-8 strings coincides with character-sequence
containment because UTF-8 is self-synchronizing. -/
def goContains (s pat : String) : Bool := decide (pat.data <:+: s.data)

/-- Lexicographic order on character lists by code point; this is the order
Go's `<` on strings and SQLite's BINARY collation induce on valid UTF-8. -/
def charLe : List Char → List Char → Bool
  | [], _ => true
  | _ :: _, [] => false
  | a :: as, b :: bs =>
    if a.toNat < b.toNat then true
    else if b.toNat < a.toNat then false
    else charLe as bs

/-- Embedding of Go's `<=` on strings (byte-wise comparison). -/
def strLe (a b : String) : Bool := charLe a.data b.data

/-- The order used on version strings (Go string comparison). -/
def verRel (a b : String) : Prop := strLe a b = true

instance : DecidableRel verRel := fun a b => by unfold verRel; infer_instance

/-! ### Line scanning (embedding `bufio.Scanner` with `ScanLines`) -/

/-- Split a character list on a separator character; mirrors
`String.splitOn` for a one-character separator. -/
def splitOnChar (sep : Char) : List Char → List (List Char)
  | [] => [[]]
  | c :: rest =>
    if c = sep then [] :: splitOnChar sep rest
    else
      match splitOnChar sep rest with
      | [] => [[c]]
      | l :: ls => (c :: l) :: ls

/-- `bufio.ScanLines` drops one trailing carriage return from each line. -/
def dropCR (l : List Char) : List Char :=
  if l.getLast? = some '\r' then l.dropLast else l

/-- The sequence of lines `bufio.Scanner` (with `ScanLines`) yields for a
string: split on `'\n'`, with no empty final token for a trailing newline,
and a trailing `'\r'` dropped from each line. -/
def scanLines (s : String) : List String :=
  if s.data = [] then []
  else
    let ls := splitOnChar '\n' s.data
    let ls := if s.data.getLast? = some '\n' then ls.dropLast else ls
    ls.map (fun l => ⟨dropCR l⟩)

/-- `strings.Join(lines, "\n")` at the character-list level. -/
def joinNLChars : List (List Char) → List Char
  | [] => []
  | [l] => l
  | l :: rest => l ++ '\n' :: joinNLChars rest

/-- Embedding of `strings.Join(lines, "\n")`. -/
def joinNL (ls : List String) : String := ⟨joinNLChars (ls.map String.data)⟩

/-! ### `parseSQL` (engine.go:313-342) -/

/-- The forward-section marker token. -/
def upMarker : String := "==== UP ===="

/-- The backward-section marker token. -/
def downMarker : String := "==== DOWN ===="

/-- The scanning loop of `parseSQL`: `cur` is the Go variable
`currentSection` (`""`, `"up"` or `"down"`), `ups`/`downs` accumulate
`upLines`/`downLines`.  Marker checks are made on the trimmed line, while
the collected line is the raw `scanner.Text()`, exactly as in the source. -/
def parseSQLLoop : List String → String → List String → List String →
    List String × List String
  | [], _, ups, downs => (ups, downs)
  | l :: rest, cur, ups, downs =>
    let line := goTrimSpace l
    if goContains line upMarker then parseSQLLoop rest "up" ups downs
    else if goContains line downMarker then parseSQLLoop rest "down" ups downs
    else if cur = "up" then parseSQLLoop rest cur (ups ++ [l]) downs
    else if cur = "down" then parseSQLLoop rest cur ups (downs ++ [l])
    else parseSQLLoop rest cur ups downs

/-- Embedding of `parseSQL` (engine.go:313-342): scan the content line by
line, collect the UP and DOWN sections, join each with newlines and trim. -/
def parseSQL (content : String) : String × String :=
  let p := parseSQLLoop (scanLines content) "" [] []
  (goTrimSpace (joinNL p.1), goTrimSpace (joinNL p.2))

/-- The collection mode of the body-extraction description in the
specification: discard, collect the forward body, collect the backward
body. -/
inductive Collect
  | discard
  | forward
  | backward
deriving DecidableEq

/-- Reference collector following the specification's words: a line
containing the forward token switches to forward collection, one
containing the backward token to backward collection; marker lines are
never collected; lines before the first marker (mode `discard`) are
dropped. -/
def specCollect : List String → Collect → List String × List String
  | [], _ => ([], [])
  | l :: rest, c =>
    if goContains l upMarker then specCollect rest .forward
    else if goContains l downMarker then specCollect rest .backward
    else
      let p := specCollect rest c
      match c with
      | .discard => p
      | .forward => (l :: p.1, p.2)
      | .backward => (p.1, l :: p.2)

/-- Reference body extraction following the specification's words: scan
line by line from `discard` mode, join each collected section with
newlines, trim leading and trailing whitespace. -/
def specParseSQL (content : String) : String × String :=
  let p := specCollect (scanLines content) .discard
  (goTrimSpace (joinNL p.1), goTrimSpace (joinNL p.2))

/-- The collection mode corresponding to the `currentSection` string of
the source's loop. -/
def curCollect (cur : String) : Collect :=
  if cur = "up" then .forward else if cur = "down" then .backward else .discard

/-! ### Filename grammar and discovery (engine.go:247-310) -/

/-- Embedding of the match of `^(\d+)_(.+)\.sql$` (RE2, engine.go:284):
on success returns the captured version (the leading maximal digit run)
and name (everything between the first underscore after it and the final
`.sql`); `.` does not match a newline. -/
def parseFilename (filename : String) : Option (String × String) :=
  let cs := filename.data
  let ds := cs.takeWhile Char.isDigit
  match cs.dropWhile Char.isDigit with
  | '_' :: rest =>
    if ds.isEmpty then none
    else
      let name := rest.take (rest.length - 4)
      let suffix := rest.drop (rest.length - 4)
      if suffix = ['.', 's', 'q', 'l'] ∧ ¬name.isEmpty = true ∧
          name.all (fun c => c ≠ '\n') = true then
        some (⟨ds⟩, ⟨name⟩)
      else none
  | _ => none

/-- Embedding of `filepath.Base` for the slash-separated file paths the
walk produces. -/
def basename (path : String) : String :=
  ⟨(splitOnChar '/' path.data).getLastD []⟩

/-- Embedding of `strings.HasSuffix`. -/
def strEndsWith (s suffix : String) : Bool := decide (suffix.data <:+ s.data)

/-- One migration file as parsed by the engine (engine.go:19-25). -/
structure MigrationFile where
  Version : String
  Name : String
  Path : String
  UpSQL : String
  DownSQL : String
deriving DecidableEq, Repr

/-- Embedding of `Engine.parseMigrationFile` (engine.go:281-310); the file
content is supplied by the file-system model, so the read cannot fail. -/
def parseMigrationFile (path content : String) : Except String MigrationFile :=
  match parseFilename (basename path) with
  | none => .error ("invalid migration filename format: " ++ basename path)
  | some vn =>
    let p := parseSQL content
    .ok { Version := vn.1, Name := vn.2, Path := path,
          UpSQL := p.1, DownSQL := p.2 }

/-- One regular file beneath the migration source: its slash-separated
path and its content. -/
structure FSFile where
  path : String
  content : String
deriving DecidableEq, Repr

/-- The migration source as `filepath.WalkDir` sees it: either the root
does not exist (`Lstat` fails, and `WalkDir` hands that error to the
callback, which returns it), or it yields a sequence of regular files in
lexical walk order (directory entries are skipped by the callback). -/
inductive FS
  | missing
  | dir (entries : List FSFile)
deriving DecidableEq

/-- Errors of discovery:  `notExist` models the propagated `Lstat`
not-exist error for a missing root (`os.IsNotExist` holds of it);
`parseError` models the wrapped parse failure for one file. -/
inductive FSError
  | notExist (msg : String)
  | parseError (msg : String)
deriving DecidableEq, Repr

/-- The body of the `WalkDir` callback (engine.go:250-266) folded over the
walked files: skip files without the `.sql` suffix, parse the rest,
abort on the first parse failure. -/
def walkFiles : List FSFile → Except FSError (List MigrationFile)
  | [] => .ok []
  | e :: rest =>
    if strEndsWith e.path ".sql" then
      match parseMigrationFile e.path e.content with
      | .error msg => .error (.parseError ("failed to parse " ++ e.path ++ ": " ++ msg))
      | .ok f => (walkFiles rest).map (fun fs => f :: fs)
    else walkFiles rest

/-- The order `sort.Slice` establishes on parsed files
(engine.go:273-275): ascending string comparison of versions. -/
def fileRel (a b : MigrationFile) : Prop := verRel a.Version b.Version

instance : DecidableRel fileRel := fun a b => by unfold fileRel; infer_instance

/-- Embedding of `Engine.loadMigrationFiles` (engine.go:247-278): walk the
source, parse every `.sql` file, sort by version ascending.  `sort.Slice`
is modelled by the (stable) insertion sort; for the unique versions of a
well-formed source every correct sort produces this result. -/
def loadMigrationFiles : FS → Except FSError (List MigrationFile)
  | .missing => .error (.notExist "no such file or directory")
  | .dir entries => (walkFiles entries).map (fun fs => fs.insertionSort fileRel)

/-! ### Version allocation (engine.go:344-368) -/

/-- The largest value of Go's 64-bit `int`. -/
def intMax : Nat := 9223372036854775807

/-- Decimal value of a digit list. -/
def charsToNat : List Char → Nat → Nat
  | [], acc => acc
  | c :: rest, acc => charsToNat rest (acc * 10 + (c.toNat - 48))

/-- Embedding of `strconv.Atoi` on the inputs reachable here (the version
strings captured by `\d+`, hence nonempty digit runs without a sign):
their decimal value, or `none` past the 64-bit `int` range. -/
def goAtoi (s : String) : Option Nat :=
  if s.data.isEmpty then none
  else if s.data.all Char.isDigit then
    let n := charsToNat s.data 0
    if n ≤ intMax then some n else none
  else none

/-- Left-pad a string with `'0'` to width `w`; never truncates. -/
def padWidth (w : Nat) (s : String) : String :=
  if s.length < w then ⟨List.replicate (w - s.length) '0'⟩ ++ s else s

/-- Embedding of `fmt.Sprintf("%03d", i)`: minimum width 3, zero padding
after the sign. -/
def sprintf03d (i : Int) : String :=
  if i < 0 then "-" ++ padWidth 2 (toString i.natAbs)
  else padWidth 3 (toString i.natAbs)

/-- Wrap-around of Go's 64-bit signed `int` addition result. -/
def wrapInt64 (n : Int) : Int := (n + 2 ^ 63) % 2 ^ 64 - 2 ^ 63

/-- Embedding of `Engine.getNextVersion` (engine.go:344-368): `"001"` for
a missing source or an empty definition list, else the last (maximum)
version parsed as an integer, incremented and rendered as `%03d`. -/
def getNextVersion (fs : FS) : Except String String :=
  match loadMigrationFiles fs with
  | .error (.notExist _) => .ok "001"
  | .error (.parseError msg) => .error msg
  | .ok files =>
    match files.getLast? with
    | none => .ok "001"
    | some lastFile =>
      match goAtoi lastFile.Version with
      | none => .error ("invalid version format: " ++ lastFile.Version)
      | some n => .ok (sprintf03d (wrapInt64 ((n : Int) + 1)))

/-! ### Storage model (turso.go) and the engine state

The storage collaborator is modelled by its observable behaviour: the
ledger (the `schema_migrations` table, version/name/applied-at rows in
insertion order) and a trace of the statements the engine submits to it.
Whether a submission fails is decided by an oracle, standing for the
database's verdict; `ExecuteSQL` (turso.go:111-124) submits one body as
one atomic transaction, so one `Event.execSQL` entry is one atomic unit. -/

/-- A row of `schema_migrations` (turso.go:17-21); the timestamp is an
abstract instant. -/
structure Migration where
  Version : String
  Name : String
  AppliedAt : Nat
deriving DecidableEq, Repr

/-- One submission the engine makes to the storage layer, in order:
`execSQL` is a call of `ExecuteSQL`, `record` of `RecordMigration`,
`remove` of `RemoveMigration`. -/
inductive Event
  | execSQL (sql : String)
  | record (version name : String)
  | remove (version : String)
deriving DecidableEq, Repr

/-- The persistent database state the engine acts on. -/
structure DBState where
  ledger : List Migration
  events : List Event
deriving DecidableEq, Repr

/-- The oracle deciding which storage calls fail: `none` is success,
`some e` failure with underlying error `e`.  A failing `ExecuteSQL` rolls
its transaction back, so it changes no modelled state; a failing
`RecordMigration`/`RemoveMigration` leaves the ledger unchanged. -/
structure StorageOracle where
  execErr : String → Option String
  recordErr : String → String → Option String
  removeErr : String → Option String

/-- The order `ORDER BY version ASC` (turso.go:78-82) establishes on
ledger rows: SQLite BINARY collation, i.e. byte-wise string comparison. -/
def migRel (a b : Migration) : Prop := verRel a.Version b.Version

instance : DecidableRel migRel := fun a b => by unfold migRel; infer_instance

/-- Embedding of `TursoStorage.GetAppliedMigrations` (turso.go:77-100):
all ledger rows ordered by version ascending. -/
def getAppliedMigrations (st : DBState) : List Migration :=
  st.ledger.insertionSort migRel

/-- Membership of a version in the applied set, as `Engine.Up` computes it
(engine.go:98-101): the lookup map built from `GetAppliedMigrations`. -/
def isApplied (st : DBState) (v : String) : Bool :=
  (getAppliedMigrations st).any (fun m => m.Version == v)

/-- The errors `Engine.Up` returns: each wraps the underlying storage
error and attaches the offending version (engine.go:114, 119). -/
inductive UpError
  | execFailed (version err : String)
  | recordFailed (version err : String)
deriving DecidableEq, Repr

/-- The ledger row `RecordMigration` inserts for a file applied at `now`
(engine.go:118, turso.go:60-67). -/
def upEntry (now : Nat) (f : MigrationFile) : Migration :=
  { Version := f.Version, Name := f.Name, AppliedAt := now }

/-- The two submissions `Engine.Up` makes for one pending file, in order:
execute the forward body, then record the ledger entry. -/
def upEvents (f : MigrationFile) : List Event :=
  [.execSQL f.UpSQL, .record f.Version f.Name]

/-- The apply loop of `Engine.Up` (engine.go:104-123): skip applied
versions; for each remaining file submit the forward body, on success
record the ledger entry, on either failure return the wrapped error at
once.  The returned state is the database state after the invocation. -/
def upLoop (o : StorageOracle) (now : Nat) (s : String → Bool) :
    List MigrationFile → DBState → Nat → DBState × Except UpError Nat
  | [], st, count => (st, .ok count)
  | f :: rest, st, count =>
    if s f.Version then upLoop o now s rest st count
    else
      let st1 : DBState := { st with events := st.events ++ [.execSQL f.UpSQL] }
      match o.execErr f.UpSQL with
      | some e => (st1, .error (.execFailed f.Version e))
      | none =>
        let st2 : DBState := { st1 with events := st1.events ++ [.record f.Version f.Name] }
        match o.recordErr f.Version f.Name with
        | some e => (st2, .error (.recordFailed f.Version e))
        | none =>
          upLoop o now s rest { st2 with ledger := st2.ledger ++ [upEntry now f] } (count + 1)

/-- Embedding of `Engine.Up` (engine.go:79-132) after discovery: `files`
is the result of `loadMigrationFiles`.  With no files at all it reports
success without touching storage; otherwise it runs the apply loop and on
success reports the number of newly applied definitions. -/
def Engine.Up (o : StorageOracle) (now : Nat) (files : List MigrationFile)
    (st : DBState) : DBState × Except UpError Nat :=
  if files.isEmpty then (st, .ok 0)
  else upLoop o now (isApplied st) files st 0

/-- The errors `Engine.Down` returns (engine.go:165, 169, 176, 181). -/
inductive DownError
  | fileNotFound (version : String)
  | noDown (version : String)
  | execFailed (version err : String)
  | removeFailed (version err : String)
deriving DecidableEq, Repr

/-- Embedding of `Engine.Down` (engine.go:135-186) after discovery: take
the last entry of the version-ordered applied list, find the first
discovered file with that version, refuse an absent file or an empty
backward body, else submit the backward body and on success delete that
version's ledger rows (`RemoveMigration`, turso.go:70-74). -/
def Engine.Down (o : StorageOracle) (files : List MigrationFile)
    (st : DBState) : DBState × Except DownError Unit :=
  match (getAppliedMigrations st).getLast? with
  | none => (st, .ok ())
  | some last =>
    match files.find? (fun f => f.Version == last.Version) with
    | none => (st, .error (.fileNotFound last.Version))
    | some f =>
      if f.DownSQL == "" then (st, .error (.noDown last.Version))
      else
        let st1 : DBState := { st with events := st.events ++ [.execSQL f.DownSQL] }
        match o.execErr f.DownSQL with
        | some e => (st1, .error (.execFailed f.Version e))
        | none =>
          let st2 : DBState := { st1 with events := st1.events ++ [.remove f.Version] }
          match o.removeErr f.Version with
          | some e => (st2, .error (.removeFailed f.Version e))
          | none =>
            ({ st2 with ledger := st2.ledger.filter (fun m => !(m.Version == f.Version)) },
             .ok ())

/-- The pending files of an `Up` invocation: discovered files whose
version is not in the applied set. -/
def pendingFiles (st : DBState) (files : List MigrationFile) : List MigrationFile :=
  files.filter (fun f => !isApplied st f.Version)

/-- The database state after successfully applying the pending files `p`
on top of `st`: each file contributes its execute/record submission pair
to the trace and its ledger row. -/
def stepState (now : Nat) (st : DBState) (p : List MigrationFile) : DBState :=
  { ledger := st.ledger ++ p.map (upEntry now),
    events := st.events ++ p.flatMap upEvents }

/-! ### Concrete instances used by the witnesses -/

/-- A storage oracle on which every submission succeeds. -/
def okOracle : StorageOracle :=
  { execErr := fun _ => none, recordErr := fun _ _ => none, removeErr := fun _ => none }

/-- A storage oracle on which every SQL execution fails. -/
def sqlFailOracle : StorageOracle :=
  { execErr := fun _ => some "near X: syntax error",
    recordErr := fun _ _ => none, removeErr := fun _ => none }

/-- A parsed migration file with both bodies present. -/
def demoFile : MigrationFile :=
  { Version := "001", Name := "create_users", Path := "migrations/001_create_users.sql",
    UpSQL := "CREATE TABLE users (id INTEGER);", DownSQL := "DROP TABLE users;" }

/-- A parsed migration file whose forward body is empty. -/
def demoEmptyUp : MigrationFile :=
  { Version := "002", Name := "noop", Path := "migrations/002_noop.sql",
    UpSQL := "", DownSQL := "DROP VIEW v;" }

/-- A parsed migration file whose backward body is empty. -/
def demoNoDown : MigrationFile :=
  { Version := "003", Name := "add_flag", Path := "migrations/003_add_flag.sql",
    UpSQL := "ALTER TABLE users ADD flag INTEGER;", DownSQL := "" }

/-- The pristine database state. -/
def emptyState : DBState := { ledger := [], events := [] }

/-- The database state after applying `demoFile` on the pristine state. -/
def demoState1 : DBState :=
  { ledger := [{ Version := "001", Name := "create_users", AppliedAt := 0 }],
    events := [.execSQL "CREATE TABLE users (id INTEGER);", .record "001" "create_users"] }

/-- A database state whose only applied version is `"003"`. -/
def demoState3 : DBState :=
  { ledger := [{ Version := "003", Name := "add_flag", AppliedAt := 7 }], events := [] }

/-! ### Order lemmas -/

lemma charLe_refl (l : List Char) : charLe l l = true := by
  induction l with
  | nil => rfl
  | cons a as ih => simp [charLe, ih]

lemma charLe_total (a b : List Char) : charLe a b = true ∨ charLe b a = true := by
  induction a generalizing b with
  | nil => exact Or.inl rfl
  | cons x xs ih =>
    cases b with
    | nil => exact Or.inr rfl
    | cons y ys =>
      by_cases h1 : x.toNat < y.toNat
      · exact Or.inl (by simp [charLe, h1])
      · by_cases h2 : y.toNat < x.toNat
        · exact Or.inr (by simp [charLe, h2])
        · rcases ih ys with h | h
          · exact Or.inl (by simp [charLe, h1, h2, h])
          · exact Or.inr (by simp [charLe, h1, h2, h])

lemma charLe_trans (a b c : List Char) (h1 : charLe a b = true)
    (h2 : charLe b c = true) : charLe a c = true := by
  induction a generalizing b c with
  | nil => rfl
  | cons x xs ih =>
    cases b with
    | nil => simp [charLe] at h1
    | cons y ys =>
      cases c with
      | nil => simp [charLe] at h2
      | cons z zs =>
        simp only [charLe] at h1 h2 ⊢
        by_cases hxy : x.toNat < y.toNat <;> by_cases hyx : y.toNat < x.toNat <;>
          by_cases hyz : y.toNat < z.toNat <;> by_cases hzy : z.toNat < y.toNat <;>
            simp [hxy, hyx, hyz, hzy] at h1 h2 ⊢ <;>
              first
                | omega
                | (first
                    | exact ih ys zs h1 h2
                    | (have hxz : x.toNat = z.toNat := by omega
                       simp [hxz, Nat.lt_irrefl] at h1 h2 ⊢
                       exact ih ys zs h1 h2))

lemma verRel_refl (a : String) : verRel a a := charLe_refl a.data

instance : IsTotal String verRel := ⟨fun a b => charLe_total a.data b.data⟩

instance : IsTrans String verRel :=
  ⟨fun a b c h1 h2 => charLe_trans a.data b.data c.data h1 h2⟩

instance : IsTotal MigrationFile fileRel :=
  ⟨fun a b => charLe_total a.Version.data b.Version.data⟩

instance : IsTrans MigrationFile fileRel :=
  ⟨fun a b c h1 h2 => charLe_trans a.Version.data b.Version.data c.Version.data h1 h2⟩

instance : IsTotal Migration migRel :=
  ⟨fun a b => charLe_total a.Version.data b.Version.data⟩

instance : IsTrans Migration migRel :=
  ⟨fun a b c h1 h2 => charLe_trans a.Version.data b.Version.data c.Version.data h1 h2⟩

/-! ### Trimming does not affect marker containment -/

lemma dropWhile_append_of_head (p : Char → Bool) (s t : List Char) (c : Char)
    (cs : List Char) (hc : p c = false) :
    ∃ s', List.dropWhile p (s ++ (c :: cs) ++ t) = s' ++ (c :: cs) ++ t := by
  rw [List.append_assoc, List.dropWhile_append]
  split
  · refine ⟨[], ?_⟩
    rw [List.nil_append, List.cons_append, List.dropWhile_cons]
    simp [hc]
  · exact ⟨List.dropWhile p s, by rw [List.append_assoc]⟩

lemma trimChars_within (l : List Char) : trimChars l <:+: l := by
  unfold trimChars
  have h1 : l.dropWhile goIsSpace <:+ l := List.dropWhile_suffix _
  have h2 : ((l.dropWhile goIsSpace).reverse.dropWhile goIsSpace).reverse <+:
      l.dropWhile goIsSpace := by
    obtain ⟨w, hw⟩ := List.dropWhile_suffix (l := (l.dropWhile goIsSpace).reverse) goIsSpace
    refine ⟨w.reverse, ?_⟩
    have h3 := congrArg List.reverse hw
    rw [List.reverse_append] at h3
    simpa using h3
  exact List.infix_iff_prefix_suffix.mpr ⟨l.dropWhile goIsSpace, h2, h1⟩

/-- A pattern that neither starts nor ends with white space occurs in a
line exactly when it occurs in the trimmed line. -/
lemma contains_trimChars_iff (pat l : List Char) {c d : Char} {cs ds : List Char}
    (hpat : pat = c :: cs) (hrev : pat.reverse = d :: ds)
    (hc : goIsSpace c = false) (hd : goIsSpace d = false) :
    pat <:+: trimChars l ↔ pat <:+: l := by
  constructor
  · intro h
    exact h.trans (trimChars_within l)
  · rintro ⟨s, t, hst⟩
    subst hst
    obtain ⟨s', hs'⟩ := dropWhile_append_of_head goIsSpace s t c cs hc
    rw [← hpat] at hs'
    unfold trimChars
    rw [hs']
    have hrev1 : (s' ++ pat ++ t).reverse = t.reverse ++ (d :: ds) ++ s'.reverse := by
      rw [List.reverse_append, List.reverse_append, hrev, List.append_assoc]
    rw [hrev1]
    obtain ⟨t', ht'⟩ := dropWhile_append_of_head goIsSpace t.reverse s'.reverse d ds hd
    rw [ht', ← hrev]
    refine ⟨s', t'.reverse, ?_⟩
    rw [List.reverse_append, List.reverse_append, List.reverse_reverse,
      List.reverse_reverse, List.append_assoc]

lemma goContains_goTrimSpace (l pat : String) {c d : Char} {cs ds : List Char}
    (hpat : pat.data = c :: cs) (hrev : pat.data.reverse = d :: ds)
    (hc : goIsSpace c = false) (hd : goIsSpace d = false) :
    goContains (goTrimSpace l) pat = goContains l pat := by
  unfold goContains goTrimSpace
  exact decide_eq_decide.mpr (contains_trimChars_iff pat.data l.data hpat hrev hc hd)

lemma goContains_trim_up (l : String) :
    goContains (goTrimSpace l) upMarker = goContains l upMarker :=
  goContains_goTrimSpace l upMarker rfl rfl rfl rfl

lemma goContains_trim_down (l : String) :
    goContains (goTrimSpace l) downMarker = goContains l downMarker :=
  goContains_goTrimSpace l downMarker rfl rfl rfl rfl

/-- The source's scanning loop computes the reference collector's result,
appended to the accumulators. -/
lemma parseSQLLoop_eq_specCollect (lines : List String) :
    ∀ (cur : String) (ups downs : List String),
      parseSQLLoop lines cur ups downs =
        (ups ++ (specCollect lines (curCollect cur)).1,
         downs ++ (specCollect lines (curCollect cur)).2) := by
  induction lines with
  | nil => intro cur ups downs; simp [parseSQLLoop, specCollect]
  | cons l rest ih =>
    intro cur ups downs
    by_cases h1 : goContains l upMarker = true
    · simp [parseSQLLoop, specCollect, goContains_trim_up, h1, ih, curCollect]
    · by_cases h2 : goContains l downMarker = true
      · simp [parseSQLLoop, specCollect, goContains_trim_up, goContains_trim_down,
          h1, h2, ih, curCollect]
      · by_cases hcu : cur = "up"
        · subst hcu
          simp [parseSQLLoop, specCollect, goContains_trim_up, goContains_trim_down,
            h1, h2, ih, curCollect]
        · by_cases hcd : cur = "down"
          · subst hcd
            simp [parseSQLLoop, specCollect, goContains_trim_up, goContains_trim_down,
              h1, h2, ih, curCollect]
          · simp [parseSQLLoop, specCollect, goContains_trim_up, goContains_trim_down,
              h1, h2, hcu, hcd, ih, curCollect]

/-! ### Helper lemmas about the apply loop -/

lemma upLoop_congr (o : StorageOracle) (now : Nat) (s : String → Bool)
    (B : List MigrationFile) {s1 s2 : DBState} {c1 c2 : Nat}
    (hst : s1 = s2) (hc : c1 = c2) :
    upLoop o now s B s1 c1 = upLoop o now s B s2 c2 := by
  rw [hst, hc]

/-- Running the loop over a prefix whose pending files all succeed reaches
the rest of the list with the pending files applied and counted. -/
lemma upLoop_append_ok (o : StorageOracle) (now : Nat) (s : String → Bool)
    (B : List MigrationFile) (A : List MigrationFile) :
    ∀ (st : DBState) (count : Nat),
      (∀ f ∈ A, s f.Version = false →
        o.execErr f.UpSQL = none ∧ o.recordErr f.Version f.Name = none) →
      upLoop o now s (A ++ B) st count =
        upLoop o now s B
          { ledger := st.ledger ++ (A.filter (fun f => !s f.Version)).map (upEntry now),
            events := st.events ++ (A.filter (fun f => !s f.Version)).flatMap upEvents }
          (count + (A.filter (fun f => !s f.Version)).length) := by
  induction A with
  | nil => intro st count _; simp
  | cons f A ih =>
    intro st count hA
    by_cases hs : s f.Version
    · have h1 : upLoop o now s ((f :: A) ++ B) st count = upLoop o now s (A ++ B) st count := by
        simp [upLoop, hs]
      have hf : (f :: A).filter (fun g => !s g.Version) = A.filter (fun g => !s g.Version) := by
        simp [List.filter_cons, hs]
      rw [h1, ih st count (fun g hg => hA g (List.mem_cons_of_mem f hg)), hf]
    · have hsf : s f.Version = false := by simpa using hs
      obtain ⟨he, hr⟩ := hA f (List.mem_cons_self f A) hsf
      have h1 : upLoop o now s ((f :: A) ++ B) st count =
          upLoop o now s (A ++ B)
            { ledger := st.ledger ++ [upEntry now f],
              events := st.events ++ upEvents f } (count + 1) := by
        simp [upLoop, hsf, he, hr, upEvents]
      have hf : (f :: A).filter (fun g => !s g.Version) =
          f :: A.filter (fun g => !s g.Version) := by
        simp [List.filter_cons, hsf]
      rw [h1, ih _ _ (fun g hg => hA g (List.mem_cons_of_mem f hg)), hf]
      apply upLoop_congr
      · simp [List.append_assoc]
      · simp; omega

/-- Characterization of a fully successful run of the loop. -/
lemma upLoop_all_ok (o : StorageOracle) (now : Nat) (s : String → Bool)
    (A : List MigrationFile) (st : DBState) (count : Nat)
    (hA : ∀ f ∈ A, s f.Version = false →
      o.execErr f.UpSQL = none ∧ o.recordErr f.Version f.Name = none) :
    upLoop o now s A st count =
      ({ ledger := st.ledger ++ (A.filter (fun f => !s f.Version)).map (upEntry now),
         events := st.events ++ (A.filter (fun f => !s f.Version)).flatMap upEvents },
       .ok (count + (A.filter (fun f => !s f.Version)).length)) := by
  have h := upLoop_append_ok o now s [] A st count hA
  rw [List.append_nil] at h
  exact h

/-- A run in which every file is already applied touches nothing. -/
lemma upLoop_skip_all (o : StorageOracle) (now : Nat) (s : String → Bool)
    (A : List MigrationFile) (st : DBState) (count : Nat)
    (hA : ∀ f ∈ A, s f.Version = true) :
    upLoop o now s A st count = (st, .ok count) := by
  have hfilter : A.filter (fun f => !s f.Version) = [] := by
    rw [List.filter_eq_nil_iff]
    intro f hf
    simp [hA f hf]
  have h := upLoop_all_ok o now s A st count
    (fun f hf hfs => absurd (hA f hf) (by simp [hfs]))
  rw [hfilter] at h
  simpa using h

/-- The loop only ever appends to the ledger. -/
lemma upLoop_ledger_extends (o : StorageOracle) (now : Nat) (s : String → Bool) :
    ∀ (A : List MigrationFile) (st : DBState) (count : Nat),
      st.ledger <+: (upLoop o now s A st count).1.ledger := by
  intro A
  induction A with
  | nil => intro st count; exact List.prefix_refl _
  | cons f A ih =>
    intro st count
    by_cases hs : s f.Version
    · simpa [upLoop, hs] using ih st count
    · have hsf : s f.Version = false := by simpa using hs
      cases he : o.execErr f.UpSQL with
      | some e => simp [upLoop, hsf, he, List.prefix_refl]
      | none =>
        cases hr : o.recordErr f.Version f.Name with
        | some e => simp [upLoop, hsf, he, hr, List.prefix_refl]
        | none =>
          have h1 : upLoop o now s (f :: A) st count = upLoop o now s A
              { ledger := st.ledger ++ [upEntry now f],
                events := (st.events ++ [Event.execSQL f.UpSQL]) ++
                  [Event.record f.Version f.Name] } (count + 1) := by
            simp [upLoop, hsf, he, hr]
          rw [h1]
          exact List.IsPrefix.trans ( List.prefix_append st.ledger [upEntry now f])
            (ih { ledger := st.ledger ++ [upEntry now f],
                  events := (st.events ++ [Event.execSQL f.UpSQL]) ++
                    [Event.record f.Version f.Name] } (count + 1))

/-- After a successful run, every version of the list is either already in
the applied set or present in the resulting ledger. -/
lemma upLoop_ok_applied (o : StorageOracle) (now : Nat) (s : String → Bool) :
    ∀ (A : List MigrationFile) (st : DBState) (count : Nat) (st' : DBState) (n : Nat),
      upLoop o now s A st count = (st', .ok n) →
      ∀ f ∈ A, s f.Version = true ∨ f.Version ∈ st'.ledger.map Migration.Version := by
  intro A
  induction A with
  | nil => intro st count st' n _ f hf; cases hf
  | cons g A ih =>
    intro st count st' n h f hf
    by_cases hs : s g.Version
    · rw [show upLoop o now s (g :: A) st count = upLoop o now s A st count from by
        simp [upLoop, hs]] at h
      rcases List.mem_cons.mp hf with rfl | hf'
      · exact Or.inl hs
      · exact ih st count st' n h f hf'
    · have hsf : s g.Version = false := by simpa using hs
      cases he : o.execErr g.UpSQL with
      | some e => simp [upLoop, hsf, he] at h
      | none =>
        cases hr : o.recordErr g.Version g.Name with
        | some e => simp [upLoop, hsf, he, hr] at h
        | none =>
          rw [show upLoop o now s (g :: A) st count = upLoop o now s A
              { ledger := st.ledger ++ [upEntry now g],
                events := (st.events ++ [Event.execSQL g.UpSQL]) ++
                  [Event.record g.Version g.Name] } (count + 1) from by
            simp [upLoop, hsf, he, hr]] at h
          rcases List.mem_cons.mp hf with rfl | hf'
          · right
            have hpre := upLoop_ledger_extends o now s A
              { ledger := st.ledger ++ [upEntry now f],
                events := (st.events ++ [Event.execSQL f.UpSQL]) ++
                  [Event.record f.Version f.Name] } (count + 1)
            rw [h] at hpre
            have hmem : upEntry now f ∈ st'.ledger :=
              hpre.subset (by simp)
            exact List.mem_map.mpr ⟨upEntry now f, hmem, rfl⟩
          · exact ih _ _ _ _ h f hf'

/-- The applied-set membership `Engine.Up` computes is membership of the
version among the ledger rows' versions. -/
lemma isApplied_iff (st : DBState) (v : String) :
    isApplied st v = true ↔ v ∈ st.ledger.map Migration.Version := by
  unfold isApplied getAppliedMigrations
  rw [List.any_eq_true]
  constructor
  · rintro ⟨m, hm, hmv⟩
    have hml : m ∈ st.ledger :=
      ((List.perm_insertionSort migRel st.ledger).mem_iff).mp hm
    exact List.mem_map.mpr ⟨m, hml, by simpa using hmv⟩
  · intro hv
    rcases List.mem_map.mp hv with ⟨m, hm, rfl⟩
    exact ⟨m, ((List.perm_insertionSort migRel st.ledger).mem_iff).mpr hm, by simp⟩

/-- In a list sorted by a reflexive relation, the last element is maximal. -/
lemma pairwise_getLast_max {α : Type} {R : α → α → Prop} (hrefl : ∀ a, R a a)
    {l : List α} (hs : List.Pairwise R l) {m : α} (hl : l.getLast? = some m) :
    ∀ x ∈ l, R x m := by
  rcases List.getLast?_eq_some_iff.mp hl with ⟨ys, rfl⟩
  intro x hx
  rcases List.mem_append.mp hx with hx | hx
  · exact (List.pairwise_append.mp hs).2.2 x hx m (by simp)
  · rw [List.mem_singleton.mp hx]
    exact hrefl m

/-- `GetAppliedMigrations` returns the ledger sorted by version. -/
lemma applied_sorted (st : DBState) : List.Sorted migRel (getAppliedMigrations st) :=
  List.sorted_insertionSort migRel st.ledger

/-- Any successful discovery result is sorted by version ascending. -/
lemma load_sorted {fs : FS} {files : List MigrationFile}
    (h : loadMigrationFiles fs = .ok files) : List.Sorted fileRel files := by
  cases fs with
  | missing => simp [loadMigrationFiles] at h
  | dir entries =>
    simp only [loadMigrationFiles] at h
    cases hw : walkFiles entries with
    | error e => rw [hw] at h; simp [Except.map] at h
    | ok raw =>
      rw [hw] at h
      simp only [Except.map, Except.ok.injEq] at h
      rw [← h]
      exact List.sorted_insertionSort _ _

/-- A walked file with the `.sql` suffix and a malformed name aborts the
whole walk with a parse error. -/
lemma walkFiles_error_of_bad (entries : List FSFile) (e : FSFile)
    (he : e ∈ entries) (hsql : strEndsWith e.path ".sql" = true)
    (hbad : parseFilename (basename e.path) = none) :
    ∃ msg, walkFiles entries = .error (.parseError msg) := by
  induction entries with
  | nil => cases he
  | cons a rest ih =>
    rcases List.mem_cons.mp he with rfl | he'
    · exact ⟨"failed to parse " ++ e.path ++ ": " ++
        ("invalid migration filename format: " ++ basename e.path),
        by simp [walkFiles, hsql, parseMigrationFile, hbad]⟩
    · by_cases ha : strEndsWith a.path ".sql" = true
      · cases hp : parseMigrationFile a.path a.content with
        | error msg =>
          exact ⟨"failed to parse " ++ a.path ++ ": " ++ msg,
            by simp [walkFiles, ha, hp]⟩
        | ok f =>
          obtain ⟨msg, hmsg⟩ := ih he'
          exact ⟨msg, by simp [walkFiles, ha, hp, hmsg, Except.map]⟩
      · obtain ⟨msg, hmsg⟩ := ih he'
        exact ⟨msg, by simp [walkFiles, ha, hmsg]⟩

/-! ### The claims -/

/-- C8: body extraction scans line by line; a line containing
`==== UP ====` switches collection to the forward body, a line containing
`==== DOWN ====` to the backward body; lines before the first marker are
discarded, marker lines are never collected, and each body is its
collected lines joined by newlines with leading and trailing whitespace
trimmed.  `specParseSQL` is that description verbatim; the source's
`parseSQL` computes it on every content. -/
theorem parseSQL_matches_spec (content : String) :
    parseSQL content = specParseSQL content := by
  unfold parseSQL specParseSQL
  rw [parseSQLLoop_eq_specCollect (scanLines content) "" [] []]
  simp [curCollect]

/-- C1: on a fully successful run, `Up` executes the forward bodies of
exactly the definitions whose version is not applied, in list order
(ascending version order whenever the input is sorted, as discovery
guarantees), records each ledger entry immediately after its body, and
reports the number of newly applied definitions — zero being a success. -/
theorem up_applies_exactly_pending (o : StorageOracle) (now : Nat)
    (files : List MigrationFile) (st : DBState)
    (hok : ∀ f ∈ pendingFiles st files,
      o.execErr f.UpSQL = none ∧ o.recordErr f.Version f.Name = none) :
    Engine.Up o now files st =
      (stepState now st (pendingFiles st files), .ok (pendingFiles st files).length) ∧
    (List.Sorted fileRel files → List.Sorted fileRel (pendingFiles st files)) := by
  constructor
  · unfold Engine.Up
    by_cases hempty : files.isEmpty
    · rw [if_pos hempty, List.isEmpty_iff.mp hempty]
      simp [pendingFiles, stepState]
    · rw [if_neg hempty]
      have h := upLoop_all_ok o now (isApplied st) files st 0
        (fun f hf hfs => hok f (List.mem_filter.mpr ⟨hf, by simp [hfs]⟩))
      rw [h]
      simp [stepState, pendingFiles]
  · intro hsorted
    exact List.Pairwise.sublist (List.filter_sublist files) hsorted

theorem up_applies_exactly_pending_witness :
    (∀ f ∈ pendingFiles emptyState [demoFile],
      okOracle.execErr f.UpSQL = none ∧ okOracle.recordErr f.Version f.Name = none) ∧
    (Engine.Up okOracle 0 [demoFile] emptyState =
      (stepState 0 emptyState (pendingFiles emptyState [demoFile]),
       .ok (pendingFiles emptyState [demoFile]).length) ∧
     (List.Sorted fileRel [demoFile] →
      List.Sorted fileRel (pendingFiles emptyState [demoFile]))) :=
  ⟨by decide, up_applies_exactly_pending okOracle 0 [demoFile] emptyState (by decide)⟩

/-- C2: if a pending definition's forward body or ledger write fails, `Up`
returns the wrapped error with the offending version attached; the
returned state shows exactly the earlier pending definitions applied and
recorded (they stay committed) followed by the failing submission — no
later body is submitted and no later ledger entry is written. -/
theorem up_stops_at_first_failure (o : StorageOracle) (now : Nat) (st : DBState)
    (A : List MigrationFile) (f : MigrationFile) (B : List MigrationFile) (e : String)
    (hA : ∀ g ∈ A, isApplied st g.Version = false →
      o.execErr g.UpSQL = none ∧ o.recordErr g.Version g.Name = none)
    (hf : isApplied st f.Version = false) :
    (o.execErr f.UpSQL = some e →
      Engine.Up o now (A ++ f :: B) st =
        ({ ledger := (stepState now st (pendingFiles st A)).ledger,
           events := (stepState now st (pendingFiles st A)).events ++
             [.execSQL f.UpSQL] },
         .error (.execFailed f.Version e))) ∧
    (o.execErr f.UpSQL = none → o.recordErr f.Version f.Name = some e →
      Engine.Up o now (A ++ f :: B) st =
        ({ ledger := (stepState now st (pendingFiles st A)).ledger,
           events := (stepState now st (pendingFiles st A)).events ++
             [.execSQL f.UpSQL, .record f.Version f.Name] },
         .error (.recordFailed f.Version e))) := by
  have hne : ¬(A ++ f :: B).isEmpty = true := by simp
  have hstep := upLoop_append_ok o now (isApplied st) (f :: B) A st 0 hA
  constructor
  · intro he
    unfold Engine.Up
    rw [if_neg hne, hstep]
    simp [upLoop, hf, he, stepState, pendingFiles]
  · intro he hr
    unfold Engine.Up
    rw [if_neg hne, hstep]
    simp [upLoop, hf, he, hr, stepState, pendingFiles, List.append_assoc]

theorem up_stops_at_first_failure_witness :
    (∀ g ∈ ([] : List MigrationFile), isApplied emptyState g.Version = false →
      sqlFailOracle.execErr g.UpSQL = none ∧
      sqlFailOracle.recordErr g.Version g.Name = none) ∧
    isApplied emptyState demoFile.Version = false ∧
    (Engine.Up sqlFailOracle 0 ([] ++ demoFile :: []) emptyState =
      ({ ledger := (stepState 0 emptyState (pendingFiles emptyState [])).ledger,
         events := (stepState 0 emptyState (pendingFiles emptyState [])).events ++
           [.execSQL demoFile.UpSQL] },
       .error (.execFailed demoFile.Version "near X: syntax error"))) :=
  ⟨by simp, by decide,
   (up_stops_at_first_failure sqlFailOracle 0 emptyState [] demoFile []
      "near X: syntax error" (by simp) (by decide)).1 rfl⟩

/-- C9: after a successful `Up` run over some files, a second `Up` run
over the same files (no new files added) returns the state unchanged with
a count of zero: it executes no forward body and writes no ledger entry,
whatever the second run's oracle and timestamp. -/
theorem up_twice_applies_nothing (o o2 : StorageOracle) (now now2 : Nat)
    (files : List MigrationFile) (st st1 : DBState) (n : Nat)
    (h : Engine.Up o now files st = (st1, .ok n)) :
    Engine.Up o2 now2 files st1 = (st1, .ok 0) := by
  by_cases hempty : files.isEmpty
  · unfold Engine.Up at h ⊢
    rw [if_pos hempty]
  · unfold Engine.Up at h ⊢
    rw [if_neg hempty] at h
    rw [if_neg hempty]
    have happlied : ∀ f ∈ files, isApplied st1 f.Version = true := by
      intro f hfmem
      rcases upLoop_ok_applied o now (isApplied st) files st 0 st1 n h f hfmem with
        hcase | hcase
      · have hmem := (isApplied_iff st f.Version).mp hcase
        have hpre := upLoop_ledger_extends o now (isApplied st) files st 0
        rw [h] at hpre
        apply (isApplied_iff st1 f.Version).mpr
        rcases List.mem_map.mp hmem with ⟨m, hm, hmv⟩
        exact List.mem_map.mpr ⟨m, hpre.subset hm, hmv⟩
      · exact (isApplied_iff st1 f.Version).mpr hcase
    exact upLoop_skip_all o2 now2 (isApplied st1) files st1 0 happlied

theorem up_twice_applies_nothing_witness :
    Engine.Up okOracle 0 [demoFile] emptyState = (demoState1, .ok 1) ∧
    Engine.Up okOracle 1 [demoFile] demoState1 = (demoState1, .ok 0) :=
  ⟨rfl, up_twice_applies_nothing okOracle okOracle 0 1 [demoFile] emptyState
    demoState1 1 rfl⟩

/-- C10: a pending definition with an empty forward body is not skipped:
`Up` submits the empty body to the storage executor as one unit, fails
with that version's wrapped error if the executor rejects it (writing no
ledger entry for it), and records the ledger entry and continues only if
the submission — and then the ledger write — succeeds.  Whether the empty
body is a no-op is thus decided by the executor's verdict alone. -/
theorem up_submits_empty_forward_body (o : StorageOracle) (now : Nat) (st : DBState)
    (A : List MigrationFile) (f : MigrationFile) (B : List MigrationFile) (e : String)
    (hA : ∀ g ∈ A, isApplied st g.Version = false →
      o.execErr g.UpSQL = none ∧ o.recordErr g.Version g.Name = none)
    (hf : isApplied st f.Version = false) (hempty : f.UpSQL = "") :
    (o.execErr "" = some e →
      Engine.Up o now (A ++ f :: B) st =
        ({ ledger := (stepState now st (pendingFiles st A)).ledger,
           events := (stepState now st (pendingFiles st A)).events ++ [.execSQL ""] },
         .error (.execFailed f.Version e))) ∧
    (o.execErr "" = none → o.recordErr f.Version f.Name = some e →
      Engine.Up o now (A ++ f :: B) st =
        ({ ledger := (stepState now st (pendingFiles st A)).ledger,
           events := (stepState now st (pendingFiles st A)).events ++
             [.execSQL "", .record f.Version f.Name] },
         .error (.recordFailed f.Version e))) ∧
    (o.execErr "" = none → o.recordErr f.Version f.Name = none →
      Engine.Up o now (A ++ f :: B) st =
        upLoop o now (isApplied st) B
          { ledger := (stepState now st (pendingFiles st A)).ledger ++ [upEntry now f],
            events := (stepState now st (pendingFiles st A)).events ++
              [.execSQL "", .record f.Version f.Name] }
          ((pendingFiles st A).length + 1)) := by
  have hne : ¬(A ++ f :: B).isEmpty = true := by simp
  have hstep := upLoop_append_ok o now (isApplied st) (f :: B) A st 0 hA
  refine ⟨?_, ?_, ?_⟩
  · intro he
    unfold Engine.Up
    rw [if_neg hne, hstep]
    simp [upLoop, hf, hempty, he, stepState, pendingFiles]
  · intro he hr
    unfold Engine.Up
    rw [if_neg hne, hstep]
    simp [upLoop, hf, hempty, he, hr, stepState, pendingFiles, List.append_assoc]
  · intro he hr
    unfold Engine.Up
    rw [if_neg hne, hstep]
    have h1 : upLoop o now (isApplied st) (f :: B)
        { ledger := st.ledger ++
            ((A.filter (fun g => !isApplied st g.Version)).map (upEntry now)),
          events := st.events ++
            ((A.filter (fun g => !isApplied st g.Version)).flatMap upEvents) }
        (0 + (A.filter (fun g => !isApplied st g.Version)).length) =
        upLoop o now (isApplied st) B
          { ledger := (st.ledger ++
              ((A.filter (fun g => !isApplied st g.Version)).map (upEntry now))) ++
              [upEntry now f],
            events := (st.events ++
              ((A.filter (fun g => !isApplied st g.Version)).flatMap upEvents)) ++
              [Event.execSQL "", Event.record f.Version f.Name] }
          ((0 + (A.filter (fun g => !isApplied st g.Version)).length) + 1) := by
      simp [upLoop, hf, hempty, he, hr, List.append_assoc]
    rw [h1]
    apply upLoop_congr
    · simp [stepState, pendingFiles]
    · simp [pendingFiles]

theorem up_submits_empty_forward_body_witness :
    (∀ g ∈ ([] : List MigrationFile), isApplied emptyState g.Version = false →
      okOracle.execErr g.UpSQL = none ∧ okOracle.recordErr g.Version g.Name = none) ∧
    isApplied emptyState demoEmptyUp.Version = false ∧
    demoEmptyUp.UpSQL = "" ∧
    (okOracle.execErr "" = none → okOracle.recordErr demoEmptyUp.Version
        demoEmptyUp.Name = none →
      Engine.Up okOracle 0 ([] ++ demoEmptyUp :: []) emptyState =
        upLoop okOracle 0 (isApplied emptyState) []
          { ledger := (stepState 0 emptyState (pendingFiles emptyState [])).ledger ++
              [upEntry 0 demoEmptyUp],
            events := (stepState 0 emptyState (pendingFiles emptyState [])).events ++
              [.execSQL "", .record demoEmptyUp.Version demoEmptyUp.Name] }
          ((pendingFiles emptyState []).length + 1)) :=
  ⟨by simp, by decide, rfl,
   (up_submits_empty_forward_body okOracle 0 emptyState [] demoEmptyUp [] ""
      (by simp) (by decide) rfl).2.2⟩

/-- C3: with a non-empty applied set, `Down` takes the applied entry that
is maximal by version order (every ledger row's version is at most the
selected one), submits the backward body of the matching discovered
definition, and deletes exactly that version's ledger rows, leaving every
other row in place; with an empty applied set it succeeds doing nothing. -/
theorem down_reverses_latest_applied (o : StorageOracle) (files : List MigrationFile)
    (st : DBState) :
    (st.ledger = [] → Engine.Down o files st = (st, .ok ())) ∧
    (∀ last f, (getAppliedMigrations st).getLast? = some last →
      files.find? (fun g => g.Version == last.Version) = some f →
      f.DownSQL ≠ "" → o.execErr f.DownSQL = none → o.removeErr f.Version = none →
      (∀ m ∈ st.ledger, verRel m.Version last.Version) ∧
      Engine.Down o files st =
        ({ ledger := st.ledger.filter (fun m => !(m.Version == f.Version)),
           events := st.events ++ [.execSQL f.DownSQL, .remove f.Version] },
         .ok ())) := by
  constructor
  · intro hnil
    have happ : getAppliedMigrations st = [] := by
      rw [getAppliedMigrations, hnil]
      rfl
    simp [Engine.Down, happ]
  · intro last f hlast hfind hdown hexec hremove
    refine ⟨?_, ?_⟩
    · intro m hm
      have hmem : m ∈ getAppliedMigrations st :=
        ((List.perm_insertionSort migRel st.ledger).mem_iff).mpr hm
      exact @pairwise_getLast_max Migration migRel (fun a => verRel_refl a.Version)
        (getAppliedMigrations st) (applied_sorted st) last hlast m hmem
    · have hdownb : (f.DownSQL == "") = false := by
        rw [beq_eq_false_iff_ne]
        exact hdown
      simp [Engine.Down, hlast, hfind, hdownb, hexec, hremove, List.append_assoc]

theorem down_reverses_latest_applied_witness :
    (getAppliedMigrations demoState1).getLast? =
      some { Version := "001", Name := "create_users", AppliedAt := 0 } ∧
    [demoFile].find? (fun g => g.Version == "001") = some demoFile ∧
    demoFile.DownSQL ≠ "" ∧
    ((∀ m ∈ demoState1.ledger, verRel m.Version "001") ∧
     Engine.Down okOracle [demoFile] demoState1 =
       ({ ledger := demoState1.ledger.filter (fun m => !(m.Version == demoFile.Version)),
          events := demoState1.events ++
            [.execSQL demoFile.DownSQL, .remove demoFile.Version] },
        .ok ())) :=
  ⟨rfl, rfl, by decide,
   (down_reverses_latest_applied okOracle [demoFile] demoState1).2
     { Version := "001", Name := "create_users", AppliedAt := 0 } demoFile
     rfl rfl (by decide) rfl rfl⟩

/-- C4: if the maximal applied version has no matching discovered
definition, or matches one whose backward body is empty, `Down` fails
with the explicit error naming that version and returns the state
untouched: no SQL body is submitted and the ledger is unchanged. -/
theorem down_refuses_missing_or_empty (o : StorageOracle) (files : List MigrationFile)
    (st : DBState) (last : Migration)
    (hlast : (getAppliedMigrations st).getLast? = some last) :
    (files.find? (fun g => g.Version == last.Version) = none →
      Engine.Down o files st = (st, .error (.fileNotFound last.Version))) ∧
    (∀ f, files.find? (fun g => g.Version == last.Version) = some f →
      f.DownSQL = "" →
      Engine.Down o files st = (st, .error (.noDown last.Version))) := by
  constructor
  · intro hfind
    simp [Engine.Down, hlast, hfind]
  · intro f hfind hdown
    have hdownb : (f.DownSQL == "") = true := by
      rw [beq_iff_eq]
      exact hdown
    simp [Engine.Down, hlast, hfind, hdownb]

theorem down_refuses_missing_or_empty_witness :
    (getAppliedMigrations demoState3).getLast? =
      some { Version := "003", Name := "add_flag", AppliedAt := 7 } ∧
    Engine.Down okOracle [] demoState3 = (demoState3, .error (.fileNotFound "003")) ∧
    Engine.Down okOracle [demoNoDown] demoState3 =
      (demoState3, .error (.noDown "003")) :=
  ⟨rfl,
   (down_refuses_missing_or_empty okOracle [] demoState3
     { Version := "003", Name := "add_flag", AppliedAt := 7 } rfl).1 rfl,
   (down_refuses_missing_or_empty okOracle [demoNoDown] demoState3
     { Version := "003", Name := "add_flag", AppliedAt := 7 } rfl).2 demoNoDown rfl rfl⟩

/-- C5 counterexample: contrary to the claim, discovery over a
non-existent source does not return an empty sequence — the walk's
top-level `Lstat` failure is returned by the callback and propagates, so
`loadMigrationFiles` fails (which is exactly why `getNextVersion`
special-cases `os.IsNotExist`). -/
theorem load_missing_source_fails :
    loadMigrationFiles .missing = .error (.notExist "no such file or directory") := rfl

/-- C5 (amended): discovery over an empty source yields the empty
sequence without failing; discovery over a non-existent source fails,
propagating the not-exist access error; every successful discovery result
is sorted ascending by version (string comparison). -/
theorem load_discovery_amended :
    loadMigrationFiles (.dir []) = .ok [] ∧
    (∃ msg, loadMigrationFiles .missing = .error (.notExist msg)) ∧
    (∀ fs files, loadMigrationFiles fs = .ok files → List.Sorted fileRel files) :=
  ⟨rfl, ⟨"no such file or directory", rfl⟩, fun _ _ h => load_sorted h⟩

theorem load_discovery_amended_witness :
    loadMigrationFiles (.dir [⟨"m/002_b.sql", ""⟩, ⟨"m/001_a.sql", ""⟩]) =
      .ok [⟨"001", "a", "m/001_a.sql", "", ""⟩, ⟨"002", "b", "m/002_b.sql", "", ""⟩] ∧
    List.Sorted fileRel
      [⟨"001", "a", "m/001_a.sql", "", ""⟩, ⟨"002", "b", "m/002_b.sql", "", ""⟩] :=
  ⟨rfl, load_discovery_amended.2.2 (.dir [⟨"m/002_b.sql", ""⟩, ⟨"m/001_a.sql", ""⟩])
    [⟨"001", "a", "m/001_a.sql", "", ""⟩, ⟨"002", "b", "m/002_b.sql", "", ""⟩] rfl⟩

/-- C6: version allocation returns `"001"` for a missing source or an
empty definition list; otherwise it takes the last — maximal — existing
version, parses it as an integer, increments it, and renders it
zero-padded to width 3 (`%03d` padding never truncates, so it keeps
growing past 999); a last version that is not a valid integer is an
error; for versions 001, 002, 007 the result is `"008"`. -/
theorem getNextVersion_spec :
    getNextVersion .missing = .ok "001" ∧
    getNextVersion (.dir []) = .ok "001" ∧
    (∀ fs files lastFile n, loadMigrationFiles fs = .ok files →
      files.getLast? = some lastFile → goAtoi lastFile.Version = some n →
      (∀ g ∈ files, fileRel g lastFile) ∧
      getNextVersion fs = .ok (sprintf03d (wrapInt64 ((n : Int) + 1))) ∧
      (n < intMax → getNextVersion fs = .ok (padWidth 3 (toString (n + 1))))) ∧
    (∀ fs files lastFile, loadMigrationFiles fs = .ok files →
      files.getLast? = some lastFile → goAtoi lastFile.Version = none →
      getNextVersion fs = .error ("invalid version format: " ++ lastFile.Version)) ∧
    (∀ s : String, s.length ≤ (padWidth 3 s).length) ∧
    getNextVersion (.dir [⟨"migrations/001_create_users.sql", ""⟩,
      ⟨"migrations/002_create_posts.sql", ""⟩,
      ⟨"migrations/007_add_index.sql", ""⟩]) = .ok "008" := by
  refine ⟨rfl, rfl, ?_, ?_, ?_, rfl⟩
  · intro fs files lastFile n hload hlastf hatoi
    refine ⟨?_, ?_, ?_⟩
    · intro g hg
      exact @pairwise_getLast_max MigrationFile fileRel (fun a => verRel_refl a.Version)
        files (load_sorted hload) lastFile hlastf g hg
    · simp only [getNextVersion, hload, hlastf, hatoi]
    · intro hlt
      rw [intMax] at hlt
      have hwrap : wrapInt64 ((n : Int) + 1) = (n : Int) + 1 := by
        unfold wrapInt64
        have h2 : ((n : Int) + 1 + 2 ^ 63) % 2 ^ 64 = (n : Int) + 1 + 2 ^ 63 := by
          apply Int.emod_eq_of_lt
          · positivity
          · have h3 : (n : Int) < 9223372036854775807 := by exact_mod_cast hlt
            norm_num
            omega
        rw [h2]
        ring
      have hfmt : sprintf03d ((n : Int) + 1) = padWidth 3 (toString (n + 1)) := by
        have h4 : ¬((n : Int) + 1 < 0) := by omega
        have h5 : ((n : Int) + 1).natAbs = n + 1 := by omega
        simp [sprintf03d, h4, h5]
      simp only [getNextVersion, hload, hlastf, hatoi, hwrap, hfmt]
  · intro fs files lastFile hload hlastf hatoi
    simp only [getNextVersion, hload, hlastf, hatoi]
  · intro s
    unfold padWidth
    split
    · rw [String.length_append]
      have h1 : (⟨List.replicate (3 - s.length) '0'⟩ : String).length =
          3 - s.length := by
        rw [String.length]
        exact List.length_replicate (3 - s.length) '0'
      omega
    · exact Nat.le_refl _

theorem getNextVersion_spec_witness :
    loadMigrationFiles (.dir [⟨"m/001_a.sql", ""⟩, ⟨"m/007_c.sql", ""⟩]) =
      .ok [⟨"001", "a", "m/001_a.sql", "", ""⟩, ⟨"007", "c", "m/007_c.sql", "", ""⟩] ∧
    [(⟨"001", "a", "m/001_a.sql", "", ""⟩ : MigrationFile),
      ⟨"007", "c", "m/007_c.sql", "", ""⟩].getLast? =
      some ⟨"007", "c", "m/007_c.sql", "", ""⟩ ∧
    goAtoi "007" = some 7 ∧
    ((∀ g ∈ [(⟨"001", "a", "m/001_a.sql", "", ""⟩ : MigrationFile),
        ⟨"007", "c", "m/007_c.sql", "", ""⟩],
      fileRel g ⟨"007", "c", "m/007_c.sql", "", ""⟩) ∧
     getNextVersion (.dir [⟨"m/001_a.sql", ""⟩, ⟨"m/007_c.sql", ""⟩]) =
       .ok (sprintf03d (wrapInt64 ((7 : Int) + 1))) ∧
     (7 < intMax →
      getNextVersion (.dir [⟨"m/001_a.sql", ""⟩, ⟨"m/007_c.sql", ""⟩]) =
        .ok (padWidth 3 (toString (7 + 1))))) :=
  ⟨rfl, rfl, rfl,
   getNextVersion_spec.2.2.1 (.dir [⟨"m/001_a.sql", ""⟩, ⟨"m/007_c.sql", ""⟩])
     [⟨"001", "a", "m/001_a.sql", "", ""⟩, ⟨"007", "c", "m/007_c.sql", "", ""⟩]
     ⟨"007", "c", "m/007_c.sql", "", ""⟩ 7 rfl rfl rfl⟩

/-- C7: a file with the recognized extension whose name does not match
`^(\d+)_(.+)\.sql$` makes discovery fail with an error; no definition
list at all is returned, so definitions from conforming files of the
same source are not returned either. -/
theorem discovery_aborts_on_malformed_filename (entries : List FSFile) (e : FSFile)
    (he : e ∈ entries) (hsql : strEndsWith e.path ".sql" = true)
    (hbad : parseFilename (basename e.path) = none) :
    ∃ msg, loadMigrationFiles (.dir entries) = .error (.parseError msg) := by
  obtain ⟨msg, hmsg⟩ := walkFiles_error_of_bad entries e he hsql hbad
  exact ⟨msg, by simp [loadMigrationFiles, hmsg, Except.map]⟩

theorem discovery_aborts_on_malformed_filename_witness :
    (⟨"migrations/bad.sql", ""⟩ : FSFile) ∈
      [(⟨"migrations/001_a.sql", ""⟩ : FSFile), ⟨"migrations/bad.sql", ""⟩] ∧
    strEndsWith "migrations/bad.sql" ".sql" = true ∧
    parseFilename (basename "migrations/bad.sql") = none ∧
    ∃ msg, loadMigrationFiles
      (.dir [⟨"migrations/001_a.sql", ""⟩, ⟨"migrations/bad.sql", ""⟩]) =
      .error (.parseError msg) :=
  ⟨by simp, rfl, rfl,
   discovery_aborts_on_malformed_filename
     [⟨"migrations/001_a.sql", ""⟩, ⟨"migrations/bad.sql", ""⟩]
     ⟨"migrations/bad.sql", ""⟩ (by simp) rfl rfl⟩

end TursoMigrate
